import Mathlib

/-!
Verification of the core of the Onset phonological rule engine
(`engine/word.py` and its `Segment` collaborator).

A `Word` is an ordered sequence of `Segment`s; a `Rule` is a loosely keyed
record with an obligatory `conditions` condition set, optional positional
flags `first`/`last`, optional contextual condition sets `before`/`after`,
and an `applies` transformation bundle.  Optional dict keys are embedded as
`Option`/`Bool` fields, and the Python code's fatal faults (`KeyError` on a
missing key, `IndexError` on an out-of-range segment access) are embedded as
an `Except Err` result.
-/

set_option autoImplicit false

namespace Onset

/-- The fatal faults the Python core can raise: a missing dict key
(`KeyError`) or an out-of-range sequence access (`IndexError`). -/
inductive Err where
  | keyError
  | indexError
  deriving DecidableEq, Repr

instance {ε α : Type} [DecidableEq ε] [DecidableEq α] : DecidableEq (Except ε α)
  | .ok x, .ok y =>
    if h : x = y then isTrue (congrArg Except.ok h)
    else isFalse (fun hc => h (Except.ok.inj hc))
  | .error x, .error y =>
    if h : x = y then isTrue (congrArg Except.error h)
    else isFalse (fun hc => h (Except.error.inj hc))
  | .ok _, .error _ => isFalse (fun hc => Except.noConfusion hc)
  | .error _, .ok _ => isFalse (fun hc => Except.noConfusion hc)

/-- Modelled from the spec: the `Segment` class is not part of the sampled
source (`engine/word.py` only imports it), so its data model follows §3 of
the spec: three pairwise-role feature-label sets `positive`, `negative`,
`zero`.  Equality of segments is equality of the three sets, which is
definitional equality here since the fields are `Finset`s. -/
structure Segment where
  positive : Finset String
  negative : Finset String
  zero : Finset String
  deriving DecidableEq

/-- Modelled from the spec: `Segment` construction "always takes three
feature-label collections and deduplicates into sets". -/
def Segment.mkFromLists (p n z : List String) : Segment :=
  ⟨p.toFinset, n.toFinset, z.toFinset⟩

/-- Modelled from the spec: `meets_conditions(conditions)` — every feature
asserted positive in the condition set must be in the segment's `positive`
set, asserted negative in `negative`, asserted zero in `zero`; features not
mentioned are unconstrained (exact set membership, no fuzziness). -/
def Segment.meets_conditions (s : Segment) (c : Segment) : Bool :=
  decide (c.positive ⊆ s.positive) &&
    decide (c.negative ⊆ s.negative) &&
    decide (c.zero ⊆ s.zero)

/-- Modelled from the spec: `combine(other)` (the "+" operation) — every
label mentioned in `other` adopts `other`'s classification, overriding this
segment's prior classification for that label; unmentioned labels keep this
segment's classification. -/
def Segment.combine (s t : Segment) : Segment :=
  ⟨(s.positive \ (t.positive ∪ t.negative ∪ t.zero)) ∪ t.positive,
   (s.negative \ (t.positive ∪ t.negative ∪ t.zero)) ∪ t.negative,
   (s.zero \ (t.positive ∪ t.negative ∪ t.zero)) ∪ t.zero⟩

instance : Add Segment := ⟨Segment.combine⟩

/-- The `applies` transformation bundle of a rule: a dict whose `positive`,
`negative` and `zero` keys are each an optional feature-label list, read in
the source via `rule['applies'].get(key, [])`. -/
structure Applies where
  positive : Option (List String)
  negative : Option (List String)
  zero : Option (List String)
  deriving DecidableEq

/-- A rule record.  `conditions` and `applies` are `Option`s because the
source accesses them with a bare `rule[...]` lookup that raises `KeyError`
when absent; `first` and `last` embed the `'first' in rule` membership
tests, whose associated values the source never reads. -/
structure Rule where
  conditions : Option Segment
  first : Bool
  last : Bool
  before : Option Segment
  after : Option Segment
  applies : Option Applies

/-- A bare `rule[key]` dict lookup: the value, or a fatal `KeyError`. -/
def keyGet {α : Type} (o : Option α) : Except Err α :=
  match o with
  | some a => .ok a
  | none => .error .keyError

/-- A word: an ordered sequence of segments (`Word.__init__`). -/
structure Word where
  segments : List Segment
  deriving DecidableEq

/-- A `self.segments[i]` access for a nonnegative index: the segment, or a
fatal `IndexError` when `i` is out of range. -/
def Word.seg (w : Word) (i : Nat) : Except Err Segment :=
  match w.segments[i]? with
  | some s => .ok s
  | none => .error .indexError

/-- The segment at an in-range index, for use in specification statements
(out of range it falls back to an empty bundle). -/
def Word.segAt (w : Word) (i : Nat) : Segment :=
  (w.segments[i]?).getD ⟨∅, ∅, ∅⟩

/-- The `after` tail of `Word.index_applicable`: if `'after' in rule`, fail
when `index` is the last index, else test the following segment against
`rule['after']`; reaching the end returns `True`. -/
def Word.afterCheck (w : Word) (index : Nat) (r : Rule) : Except Err Bool :=
  match r.after with
  | none => .ok true
  | some a =>
    if index = w.segments.length - 1 then .ok false
    else
      match w.seg (index + 1) with
      | .error e => .error e
      | .ok s => if s.meets_conditions a = false then .ok false else .ok true

/-- The `before` block of `Word.index_applicable`: if `'before' in rule`,
fail when `index` is `0`, else test the preceding segment against
`rule['before']`; then fall through to the `after` block. -/
def Word.beforeCheck (w : Word) (index : Nat) (r : Rule) : Except Err Bool :=
  match r.before with
  | none => w.afterCheck index r
  | some b =>
    if index = 0 then .ok false
    else
      match w.seg (index - 1) with
      | .error e => .error e
      | .ok s =>
        if s.meets_conditions b = false then .ok false
        else w.afterCheck index r

/-- `Word.index_applicable(index, rule)`: the segment at `index` must meet
`rule['conditions']`; then the optional `first`, `last`, `before`, `after`
indicators are checked in order, each able to return `False` early. -/
def Word.index_applicable (w : Word) (index : Nat) (r : Rule) : Except Err Bool :=
  match w.seg index with
  | .error e => .error e
  | .ok s =>
    match r.conditions with
    | none => .error .keyError
    | some c =>
      if s.meets_conditions c = false then .ok false
      else if r.first ∧ index ≠ 0 then .ok false
      else if r.last ∧ index ≠ w.segments.length - 1 then .ok false
      else w.beforeCheck index r

/-- The short-circuiting `any(self.index_applicable(i, rule) for i in
range(len(self.segments)))` generator: `False` on an exhausted range, the
first `True` wins, and a fault inside the generator body propagates. -/
def Word.anyApplicable (w : Word) (r : Rule) : List Nat → Except Err Bool
  | [] => .ok false
  | i :: is =>
    match w.index_applicable i r with
    | .error e => .error e
    | .ok true => .ok true
    | .ok false => w.anyApplicable r is

/-- `Word.applicable(rule)`: some index of the word satisfies
`index_applicable`. -/
def Word.applicable (w : Word) (r : Rule) : Except Err Bool :=
  w.anyApplicable r (List.range w.segments.length)

/-- The `for i in range(len(self.segments))` loop of `Word.apply_rule`,
given the already-read `rule['applies']` bundle `ap` and the already-built
transformation segment `ruleSegment`: at an applicable index the segment is
dropped when `'deletion'` is in `rule['applies'].get('positive', [])` and
otherwise replaced by `self.segments[i] + rule_segment`; a non-applicable
index keeps `self.segments[i]` unchanged. -/
def Word.applyIndices (w : Word) (r : Rule) (ap : Applies) (ruleSegment : Segment) :
    List Nat → Except Err (List Segment)
  | [] => .ok []
  | i :: is =>
    match w.index_applicable i r with
    | .error e => .error e
    | .ok true =>
      if "deletion" ∈ ap.positive.getD [] then
        w.applyIndices r ap ruleSegment is
      else
        match w.seg i with
        | .error e => .error e
        | .ok s =>
          match w.applyIndices r ap ruleSegment is with
          | .error e => .error e
          | .ok rest => .ok ((s + ruleSegment) :: rest)
    | .ok false =>
      match w.seg i with
      | .error e => .error e
      | .ok s =>
        match w.applyIndices r ap ruleSegment is with
        | .error e => .error e
        | .ok rest => .ok (s :: rest)

/-- `Word.apply_rule(rule)`: read `rule['applies']` (a fatal `KeyError`
when missing), build the transformation segment from its `positive`,
`negative` and `zero` lists (each defaulting to `[]`), run the rewriting
loop over every index, and wrap the output sequence in a new `Word`. -/
def Word.apply_rule (w : Word) (r : Rule) : Except Err Word :=
  match r.applies with
  | none => .error .keyError
  | some ap =>
    match w.applyIndices r ap
        (Segment.mkFromLists (ap.positive.getD []) (ap.negative.getD []) (ap.zero.getD []))
        (List.range w.segments.length) with
    | .error e => .error e
    | .ok segs => .ok ⟨segs⟩

/-- The rewriting walk in the words of the spec, for the refinement claim
about `apply_rule`: build one transformation `Segment` from the
`positive`/`negative`/`zero` lists of `rule.applies` (missing lists
defaulting to empty), walk the indices in order, omit a matched segment when
`"deletion"` is among the positive list, otherwise append the matched
segment combined with the transformation segment, and append an unmatched
segment unchanged. -/
def Word.applyRuleSpec (w : Word) (r : Rule) (ap : Applies) : Word :=
  ⟨(List.range w.segments.length).filterMap (fun i =>
    if w.index_applicable i r = .ok true then
      (if "deletion" ∈ ap.positive.getD [] then none
       else some ((w.segAt i).combine
         (Segment.mkFromLists (ap.positive.getD []) (ap.negative.getD []) (ap.zero.getD []))))
    else some (w.segAt i))⟩

/-- A voiced segment, from the spec's concrete scenario. -/
def segV : Segment := Segment.mkFromLists ["voiced"] [] []

/-- A voiceless segment, from the spec's concrete scenario. -/
def segU : Segment := Segment.mkFromLists [] ["voiced"] []

/-- The two-segment word of the spec's concrete scenarios. -/
def wordVU : Word := ⟨[segV, segU]⟩

/-- A condition set requiring the feature `voiced` to be positive. -/
def condV : Segment := Segment.mkFromLists ["voiced"] [] []

/-- A condition set requiring the feature `voiced` to be negative. -/
def condU : Segment := Segment.mkFromLists [] ["voiced"] []

/-- A condition set no segment of `wordVU` meets. -/
def condNever : Segment := Segment.mkFromLists ["nasal"] [] []

/-- A devoicing transformation bundle: `negative` list `["voiced"]`. -/
def apDevoice : Applies := ⟨none, some ["voiced"], none⟩

/-- A deletion transformation bundle: `positive` list `["deletion"]`. -/
def apDel : Applies := ⟨some ["deletion"], none, none⟩

/-- The devoicing rule of the spec's first concrete scenario. -/
def ruleDevoice : Rule := ⟨some condV, false, false, none, none, some apDevoice⟩

/-- The deletion rule of the spec's second concrete scenario: it matches the
voiceless segment only. -/
def ruleDel : Rule := ⟨some condU, false, false, none, none, some apDel⟩

/-- A devoicing rule restricted by `last`. -/
def ruleLast : Rule := ⟨some condV, false, true, none, none, some apDevoice⟩

/-- A rule whose conditions no segment of `wordVU` meets. -/
def ruleNever : Rule := ⟨some condNever, false, false, none, none, some apDevoice⟩

/-- A contextual rule with both `before` and `after` set. -/
def ruleCtx : Rule := ⟨some condU, false, false, some condV, some condV, some apDevoice⟩

/-- A rule record with no `conditions` and no `applies` key. -/
def ruleBare : Rule := ⟨none, false, false, none, none, none⟩

lemma Word.seg_ok (w : Word) {i : Nat} (h : i < w.segments.length) :
    w.seg i = .ok (w.segAt i) := by
  simp [Word.seg, Word.segAt, List.getElem?_eq_getElem h]

lemma Word.afterCheck_eq_ok_true (w : Word) (i : Nat) (r : Rule)
    (h : i < w.segments.length) :
    (w.afterCheck i r = .ok true ↔
      ∀ a, r.after = some a →
        i < w.segments.length - 1 ∧ (w.segAt (i + 1)).meets_conditions a = true) := by
  cases hA : r.after with
  | none => simp [Word.afterCheck, hA]
  | some a =>
    by_cases hi : i = w.segments.length - 1
    · have hx : ¬ i < w.segments.length - 1 := by omega
      simp [Word.afterCheck, hA, hi, hx]
    · have h1 : i + 1 < w.segments.length := by omega
      have hseg := w.seg_ok h1
      have hx : i < w.segments.length - 1 := by omega
      cases hm : (w.segAt (i + 1)).meets_conditions a
      · simp [Word.afterCheck, hA, hi, hseg, hm]
      · simp [Word.afterCheck, hA, hi, hseg, hm, hx]

lemma Word.beforeCheck_eq_ok_true (w : Word) (i : Nat) (r : Rule)
    (h : i < w.segments.length) :
    (w.beforeCheck i r = .ok true ↔
      (∀ b, r.before = some b →
        0 < i ∧ (w.segAt (i - 1)).meets_conditions b = true) ∧
      (∀ a, r.after = some a →
        i < w.segments.length - 1 ∧ (w.segAt (i + 1)).meets_conditions a = true)) := by
  cases hB : r.before with
  | none => simp [Word.beforeCheck, hB, w.afterCheck_eq_ok_true i r h]
  | some b =>
    by_cases hi : i = 0
    · simp [Word.beforeCheck, hB, hi]
    · have h1 : i - 1 < w.segments.length := by omega
      have hseg := w.seg_ok h1
      cases hm : (w.segAt (i - 1)).meets_conditions b
      · simp [Word.beforeCheck, hB, hi, hseg, hm]
      · simp [Word.beforeCheck, hB, hi, hseg, hm,
          w.afterCheck_eq_ok_true i r h, Nat.pos_of_ne_zero hi]

lemma Word.index_applicable_eq_ok_true (w : Word) (i : Nat) (r : Rule) {c : Segment}
    (hc : r.conditions = some c) (h : i < w.segments.length) :
    (w.index_applicable i r = .ok true ↔
      ((w.segAt i).meets_conditions c = true ∧
       (r.first = true → i = 0) ∧
       (r.last = true → i = w.segments.length - 1) ∧
       (∀ b, r.before = some b →
         0 < i ∧ (w.segAt (i - 1)).meets_conditions b = true) ∧
       (∀ a, r.after = some a →
         i < w.segments.length - 1 ∧ (w.segAt (i + 1)).meets_conditions a = true))) := by
  have hseg := w.seg_ok h
  cases hm : (w.segAt i).meets_conditions c
  · simp [Word.index_applicable, hseg, hc, hm]
  · by_cases hf : r.first = true ∧ i ≠ 0
    · have hq : w.index_applicable i r = .ok false := by
        simp only [Word.index_applicable, hseg, hc, hm]
        rw [if_neg (by simp), if_pos hf]
      rw [hq]
      constructor
      · intro hx
        exact absurd hx (by simp)
      · rintro ⟨-, h2, -⟩
        exact absurd (h2 hf.1) hf.2
    · by_cases hl : r.last = true ∧ i ≠ w.segments.length - 1
      · have hq : w.index_applicable i r = .ok false := by
          simp only [Word.index_applicable, hseg, hc, hm]
          rw [if_neg (by simp), if_neg hf, if_pos hl]
        rw [hq]
        constructor
        · intro hx
          exact absurd hx (by simp)
        · rintro ⟨-, -, h3, -⟩
          exact absurd (h3 hl.1) hl.2
      · have hf2 : r.first = true → i = 0 := by
          intro hx
          by_contra hy
          exact hf ⟨hx, hy⟩
        have hl2 : r.last = true → i = w.segments.length - 1 := by
          intro hx
          by_contra hy
          exact hl ⟨hx, hy⟩
        have hq : w.index_applicable i r = w.beforeCheck i r := by
          simp only [Word.index_applicable, hseg, hc, hm]
          rw [if_neg (by simp), if_neg hf, if_neg hl]
        rw [hq, w.beforeCheck_eq_ok_true i r h]
        constructor
        · intro hx
          exact ⟨rfl, hf2, hl2, hx.1, hx.2⟩
        · rintro ⟨-, -, -, hB, hA⟩
          exact ⟨hB, hA⟩

lemma Word.afterCheck_isOk (w : Word) (i : Nat) (r : Rule)
    (h : i < w.segments.length) : ∃ b, w.afterCheck i r = .ok b := by
  cases hA : r.after with
  | none => exact ⟨true, by simp [Word.afterCheck, hA]⟩
  | some a =>
    by_cases hi : i = w.segments.length - 1
    · exact ⟨false, by simp [Word.afterCheck, hA, hi]⟩
    · have h1 : i + 1 < w.segments.length := by omega
      have hseg := w.seg_ok h1
      cases hm : (w.segAt (i + 1)).meets_conditions a
      · exact ⟨false, by simp [Word.afterCheck, hA, hi, hseg, hm]⟩
      · exact ⟨true, by simp [Word.afterCheck, hA, hi, hseg, hm]⟩

lemma Word.beforeCheck_isOk (w : Word) (i : Nat) (r : Rule)
    (h : i < w.segments.length) : ∃ b, w.beforeCheck i r = .ok b := by
  cases hB : r.before with
  | none =>
    obtain ⟨b, hb⟩ := w.afterCheck_isOk i r h
    exact ⟨b, by simp [Word.beforeCheck, hB, hb]⟩
  | some c =>
    by_cases hi : i = 0
    · exact ⟨false, by simp [Word.beforeCheck, hB, hi]⟩
    · have h1 : i - 1 < w.segments.length := by omega
      have hseg := w.seg_ok h1
      cases hm : (w.segAt (i - 1)).meets_conditions c
      · exact ⟨false, by simp [Word.beforeCheck, hB, hi, hseg, hm]⟩
      · obtain ⟨b, hb⟩ := w.afterCheck_isOk i r h
        exact ⟨b, by simp [Word.beforeCheck, hB, hi, hseg, hm, hb]⟩

lemma Word.index_applicable_isOk (w : Word) (i : Nat) (r : Rule) {c : Segment}
    (hc : r.conditions = some c) (h : i < w.segments.length) :
    ∃ b, w.index_applicable i r = .ok b := by
  have hseg := w.seg_ok h
  cases hm : (w.segAt i).meets_conditions c
  · exact ⟨false, by simp [Word.index_applicable, hseg, hc, hm]⟩
  · by_cases hf : r.first = true ∧ i ≠ 0
    · refine ⟨false, ?_⟩
      simp only [Word.index_applicable, hseg, hc, hm]
      rw [if_neg (by simp), if_pos hf]
    · by_cases hl : r.last = true ∧ i ≠ w.segments.length - 1
      · refine ⟨false, ?_⟩
        simp only [Word.index_applicable, hseg, hc, hm]
        rw [if_neg (by simp), if_neg hf, if_pos hl]
      · obtain ⟨b, hb⟩ := w.beforeCheck_isOk i r h
        refine ⟨b, ?_⟩
        simp only [Word.index_applicable, hseg, hc, hm]
        rw [if_neg (by simp), if_neg hf, if_neg hl]
        exact hb

lemma Word.index_applicable_segOk {w : Word} {i : Nat} {r : Rule} {b : Bool}
    (hb : w.index_applicable i r = .ok b) : w.seg i = .ok (w.segAt i) := by
  cases hs : w.seg i with
  | error e =>
    rw [Word.index_applicable, hs] at hb
    exact absurd hb (by simp)
  | ok s =>
    have hq : w.segments[i]? = some s := by
      unfold Word.seg at hs
      cases hq2 : w.segments[i]? <;> rw [hq2] at hs <;> simp_all
    simp [Word.segAt, hq]

lemma Word.index_applicable_keyError (w : Word) (i : Nat) (r : Rule)
    (hc : r.conditions = none) (h : i < w.segments.length) :
    w.index_applicable i r = .error .keyError := by
  simp [Word.index_applicable, w.seg_ok h, hc]

lemma Word.applyIndices_eq (w : Word) (r : Rule) (ap : Applies) (ts : Segment)
    (l : List Nat) :
    (∀ i ∈ l, ∃ b, w.index_applicable i r = .ok b) →
    w.applyIndices r ap ts l = .ok (l.filterMap (fun i =>
      if w.index_applicable i r = .ok true then
        (if "deletion" ∈ ap.positive.getD [] then none else some (w.segAt i + ts))
      else some (w.segAt i))) := by
  induction l with
  | nil => intro _; rfl
  | cons i is ih =>
    intro hall
    obtain ⟨b, hb⟩ := hall i (List.mem_cons_self i is)
    have hrest := ih (fun j hj => hall j (List.mem_cons_of_mem _ hj))
    have hsegOk := Word.index_applicable_segOk hb
    cases b
    · simp [Word.applyIndices, hb, hrest, hsegOk, List.filterMap_cons]
    · by_cases hd : "deletion" ∈ ap.positive.getD []
      · simp [Word.applyIndices, hb, hrest, hd, List.filterMap_cons]
      · simp [Word.applyIndices, hb, hrest, hd, hsegOk, List.filterMap_cons]

lemma Word.apply_rule_eq (w : Word) (r : Rule) {c : Segment} {ap : Applies}
    (hc : r.conditions = some c) (ha : r.applies = some ap) :
    w.apply_rule r = .ok ⟨(List.range w.segments.length).filterMap (fun i =>
      if w.index_applicable i r = .ok true then
        (if "deletion" ∈ ap.positive.getD [] then none
         else some (w.segAt i +
           Segment.mkFromLists (ap.positive.getD []) (ap.negative.getD []) (ap.zero.getD [])))
      else some (w.segAt i))⟩ := by
  have hall : ∀ i ∈ List.range w.segments.length, ∃ b, w.index_applicable i r = .ok b :=
    fun i hi => w.index_applicable_isOk i r hc (List.mem_range.mp hi)
  have hloop := w.applyIndices_eq r ap
    (Segment.mkFromLists (ap.positive.getD []) (ap.negative.getD []) (ap.zero.getD []))
    (List.range w.segments.length) hall
  simp [Word.apply_rule, ha, hloop]

lemma Word.applyIndices_all_false (w : Word) (r : Rule) (ap : Applies) (ts : Segment)
    (l : List Nat) :
    (∀ i ∈ l, w.index_applicable i r = .ok false) →
    w.applyIndices r ap ts l = .ok (l.map w.segAt) := by
  induction l with
  | nil => intro _; rfl
  | cons i is ih =>
    intro hall
    have hb := hall i (List.mem_cons_self i is)
    have hsegOk := Word.index_applicable_segOk hb
    simp [Word.applyIndices, hb, hsegOk,
      ih (fun j hj => hall j (List.mem_cons_of_mem _ hj))]

lemma Word.map_segAt_range (w : Word) :
    (List.range w.segments.length).map w.segAt = w.segments := by
  apply List.ext_getElem
  · simp
  · intro i h1 h2
    simp [Word.segAt, List.getElem?_eq_getElem h2]

lemma Word.anyApplicable_eq_ok_true (w : Word) (r : Rule) (l : List Nat) :
    (∀ i ∈ l, ∃ b, w.index_applicable i r = .ok b) →
    (w.anyApplicable r l = .ok true ↔ ∃ i ∈ l, w.index_applicable i r = .ok true) := by
  induction l with
  | nil => intro _; simp [Word.anyApplicable]
  | cons i is ih =>
    intro hall
    obtain ⟨b, hb⟩ := hall i (List.mem_cons_self i is)
    have hrest := ih (fun j hj => hall j (List.mem_cons_of_mem _ hj))
    cases b
    · simp only [Word.anyApplicable, hb]
      rw [hrest]
      constructor
      · intro hx
        obtain ⟨j, hj1, hj2⟩ := hx
        exact ⟨j, List.mem_cons_of_mem _ hj1, hj2⟩
      · rintro ⟨j, hj1, hj2⟩
        rcases List.mem_cons.mp hj1 with hj | hj
        · rw [hj] at hj2
          rw [hj2] at hb
          exact absurd hb (by simp)
        · exact ⟨j, hj, hj2⟩
    · simp only [Word.anyApplicable, hb]
      constructor
      · intro _
        exact ⟨i, List.mem_cons_self i is, hb⟩
      · intro _
        trivial

lemma length_filterMap_add {α β : Type} (p : α → Prop) [DecidablePred p] (g : α → β)
    (l : List α) :
    (l.filterMap (fun a => if p a then none else some (g a))).length
      + (l.filter (fun a => decide (p a))).length = l.length := by
  induction l with
  | nil => rfl
  | cons a l ih =>
    by_cases h : p a
    · simp [List.filterMap_cons, List.filter_cons, h]
      omega
    · simp [List.filterMap_cons, List.filter_cons, h]
      omega

lemma Word.index_applicable_congr (w : Word) (i : Nat) (r r2 : Rule)
    (h1 : r2.conditions = r.conditions) (h2 : r2.first = r.first)
    (h3 : r2.last = r.last) (h4 : r2.before = r.before) (h5 : r2.after = r.after) :
    w.index_applicable i r2 = w.index_applicable i r := by
  cases r with
  | mk c f l b a ap =>
    cases r2 with
    | mk c2 f2 l2 b2 a2 ap2 =>
      simp only [Rule.mk.injEq] at *
      subst h1; subst h2; subst h3; subst h4; subst h5
      rfl

lemma Word.afterCheck_last (w : Word) (r : Rule) {a : Segment}
    (hA : r.after = some a) :
    w.afterCheck (w.segments.length - 1) r = .ok false := by
  simp [Word.afterCheck, hA]

lemma Word.beforeCheck_of_after_false (w : Word) (i : Nat) (r : Rule)
    (h : i < w.segments.length) (hAC : w.afterCheck i r = .ok false) :
    w.beforeCheck i r = .ok false := by
  cases hB : r.before with
  | none => simp [Word.beforeCheck, hB, hAC]
  | some b =>
    by_cases h0 : i = 0
    · simp [Word.beforeCheck, hB, h0]
    · have h2 : i - 1 < w.segments.length := by omega
      have hseg2 := w.seg_ok h2
      cases hm2 : (w.segAt (i - 1)).meets_conditions b
      · simp [Word.beforeCheck, hB, h0, hseg2, hm2]
      · simp [Word.beforeCheck, hB, h0, hseg2, hm2, hAC]

lemma filterMap_if_some {α β : Type} (p : α → Prop) [DecidablePred p] (f g : α → β)
    (l : List α) :
    l.filterMap (fun a => if p a then some (f a) else some (g a))
      = l.map (fun a => if p a then f a else g a) := by
  induction l with
  | nil => rfl
  | cons a l ih => by_cases h : p a <;> simp [List.filterMap_cons, h, ih]

/-- C1: for every `Word`, every rule with a `conditions` key and every
in-range index, `index_applicable(index, rule)` returns true iff the segment
at the index meets `rule['conditions']`, a present `first` key forces the
index to be `0`, a present `last` key forces it to be the final index, a
present `before` key requires a preceding segment meeting `rule['before']`,
and a present `after` key requires a following segment meeting
`rule['after']`. -/
theorem C1_index_applicable_iff (w : Word) (r : Rule) (i : Nat) (c : Segment)
    (hc : r.conditions = some c) (h : i < w.segments.length) :
    (w.index_applicable i r = .ok true ↔
      ((w.segAt i).meets_conditions c = true ∧
       (r.first = true → i = 0) ∧
       (r.last = true → i = w.segments.length - 1) ∧
       (∀ b, r.before = some b →
         0 < i ∧ (w.segAt (i - 1)).meets_conditions b = true) ∧
       (∀ a, r.after = some a →
         i < w.segments.length - 1 ∧ (w.segAt (i + 1)).meets_conditions a = true))) :=
  w.index_applicable_eq_ok_true i r hc h

/-- Witness for C1 at the spec's devoicing scenario, index 0. -/
theorem C1_witness :
    (wordVU.index_applicable 0 ruleDevoice = .ok true ↔
      ((wordVU.segAt 0).meets_conditions condV = true ∧
       (ruleDevoice.first = true → 0 = 0) ∧
       (ruleDevoice.last = true → 0 = wordVU.segments.length - 1) ∧
       (∀ b, ruleDevoice.before = some b →
         0 < 0 ∧ (wordVU.segAt (0 - 1)).meets_conditions b = true) ∧
       (∀ a, ruleDevoice.after = some a →
         0 < wordVU.segments.length - 1 ∧
           (wordVU.segAt (0 + 1)).meets_conditions a = true))) :=
  C1_index_applicable_iff wordVU ruleDevoice 0 condV rfl (by decide)

/-- C2: for every `Word` and rule with `conditions` and `applies` keys,
`apply_rule` returns exactly the output the spec describes: one
transformation segment is built from the `applies` lists (missing lists
defaulting to empty) and the indices are walked in order, deleting matched
segments when `"deletion"` is positive, merging otherwise, and keeping
unmatched segments. -/
theorem C2_apply_rule_refines_spec (w : Word) (r : Rule) (c : Segment) (ap : Applies)
    (hc : r.conditions = some c) (ha : r.applies = some ap) :
    w.apply_rule r = .ok (w.applyRuleSpec r ap) := by
  rw [w.apply_rule_eq r hc ha]
  rfl

/-- Witness for C2 at the spec's devoicing scenario. -/
theorem C2_witness :
    wordVU.apply_rule ruleDevoice = .ok (wordVU.applyRuleSpec ruleDevoice apDevoice) :=
  C2_apply_rule_refines_spec wordVU ruleDevoice condV apDevoice rfl rfl

/-- C3: when `"deletion"` is among `applies.positive`, `apply_rule` removes
every matched segment and never emits a combined segment, and the other
labels of the `applies` bundle are irrelevant: any rule differing only in
its (still deletion-containing) `applies` bundle produces the same output. -/
theorem C3_deletion_discards_merge (w : Word) (r : Rule) (c : Segment) (ap : Applies)
    (hc : r.conditions = some c) (ha : r.applies = some ap)
    (hdel : "deletion" ∈ ap.positive.getD []) :
    (w.apply_rule r = .ok ⟨(List.range w.segments.length).filterMap (fun i =>
        if w.index_applicable i r = .ok true then none else some (w.segAt i))⟩) ∧
    (∀ r2 : Rule, ∀ ap2 : Applies,
      r2.conditions = r.conditions → r2.first = r.first → r2.last = r.last →
      r2.before = r.before → r2.after = r.after → r2.applies = some ap2 →
      "deletion" ∈ ap2.positive.getD [] →
      w.apply_rule r2 = w.apply_rule r) := by
  constructor
  · rw [w.apply_rule_eq r hc ha]
    simp [hdel]
  · intro r2 ap2 e1 e2 e3 e4 e5 ha2 hdel2
    have hc2 : r2.conditions = some c := by rw [e1, hc]
    have hcong : ∀ j, w.index_applicable j r2 = w.index_applicable j r :=
      fun j => w.index_applicable_congr j r r2 e1 e2 e3 e4 e5
    rw [w.apply_rule_eq r2 hc2 ha2, w.apply_rule_eq r hc ha]
    simp [hcong, hdel, hdel2]

/-- Witness for C3 at the spec's deletion scenario. -/
theorem C3_witness :
    (wordVU.apply_rule ruleDel = .ok ⟨(List.range wordVU.segments.length).filterMap
        (fun i => if wordVU.index_applicable i ruleDel = .ok true then none
                  else some (wordVU.segAt i))⟩) ∧
    (∀ r2 : Rule, ∀ ap2 : Applies,
      r2.conditions = ruleDel.conditions → r2.first = ruleDel.first →
      r2.last = ruleDel.last → r2.before = ruleDel.before →
      r2.after = ruleDel.after → r2.applies = some ap2 →
      "deletion" ∈ ap2.positive.getD [] →
      wordVU.apply_rule r2 = wordVU.apply_rule ruleDel) :=
  C3_deletion_discards_merge wordVU ruleDel condU apDel rfl rfl (by decide)

/-- C4: a rule (with an `applies` key) for which `index_applicable` is false
at every index of the word rewrites the word to an equal word. -/
theorem C4_no_match_identity (w : Word) (r : Rule) (ap : Applies)
    (ha : r.applies = some ap)
    (hno : ∀ i < w.segments.length, w.index_applicable i r = .ok false) :
    w.apply_rule r = .ok w := by
  have hloop := w.applyIndices_all_false r ap
    (Segment.mkFromLists (ap.positive.getD []) (ap.negative.getD []) (ap.zero.getD []))
    (List.range w.segments.length)
    (fun i hi => hno i (List.mem_range.mp hi))
  simp [Word.apply_rule, ha, hloop, w.map_segAt_range]

/-- Witness for C4: the never-matching rule leaves `wordVU` unchanged. -/
theorem C4_witness : wordVU.apply_rule ruleNever = .ok wordVU :=
  C4_no_match_identity wordVU ruleNever apDevoice rfl (by decide)

/-- C5: a deletion rule (with `conditions` and `applies` keys) shrinks a
word of length n to length n − k, where k is the number of indices at which
`index_applicable` holds; when every index matches, the result is the empty
word. -/
theorem C5_deletion_shrinks (w : Word) (r : Rule) (c : Segment) (ap : Applies)
    (hc : r.conditions = some c) (ha : r.applies = some ap)
    (hdel : "deletion" ∈ ap.positive.getD []) :
    (Except.map (fun v => v.segments.length) (w.apply_rule r)
      = .ok (w.segments.length -
        ((List.range w.segments.length).filter
          (fun i => decide (w.index_applicable i r = .ok true))).length)) ∧
    ((∀ i < w.segments.length, w.index_applicable i r = .ok true) →
      w.apply_rule r = .ok ⟨[]⟩) := by
  have hfm : w.apply_rule r = .ok ⟨(List.range w.segments.length).filterMap (fun i =>
      if w.index_applicable i r = .ok true then none else some (w.segAt i))⟩ := by
    rw [w.apply_rule_eq r hc ha]
    simp [hdel]
  constructor
  · rw [hfm]
    have hl := length_filterMap_add (fun i => w.index_applicable i r = .ok true)
      w.segAt (List.range w.segments.length)
    simp only [List.length_range] at hl
    simp only [Except.map]
    exact congrArg Except.ok (Nat.eq_sub_of_add_eq hl)
  · intro hall
    rw [hfm]
    have hnone : ∀ i ∈ List.range w.segments.length,
        (if w.index_applicable i r = .ok true then none
         else some (w.segAt i)) = (none : Option Segment) := by
      intro i hi
      simp [hall i (List.mem_range.mp hi)]
    rw [List.filterMap_eq_nil_iff.mpr hnone]

/-- Witness for C5 at the spec's deletion scenario (one of two indices
matches). -/
theorem C5_witness :
    (Except.map (fun v => v.segments.length) (wordVU.apply_rule ruleDel)
      = .ok (wordVU.segments.length -
        ((List.range wordVU.segments.length).filter
          (fun i => decide (wordVU.index_applicable i ruleDel = .ok true))).length)) ∧
    ((∀ i < wordVU.segments.length, wordVU.index_applicable i ruleDel = .ok true) →
      wordVU.apply_rule ruleDel = .ok ⟨[]⟩) :=
  C5_deletion_shrinks wordVU ruleDel condU apDel rfl rfl (by decide)

/-- C6: a rule with `first` set is never applicable at a nonzero in-range
index, and a rule with `last` set is never applicable at an in-range index
other than the final one. -/
theorem C6_first_last_exclusive (w : Word) (r : Rule) (i : Nat) (c : Segment)
    (hc : r.conditions = some c) (h : i < w.segments.length) :
    (r.first = true → i ≠ 0 → w.index_applicable i r = .ok false) ∧
    (r.last = true → i ≠ w.segments.length - 1 →
      w.index_applicable i r = .ok false) := by
  have hseg := w.seg_ok h
  constructor
  · intro hf hi
    cases hm : (w.segAt i).meets_conditions c
    · simp [Word.index_applicable, hseg, hc, hm]
    · simp only [Word.index_applicable, hseg, hc, hm]
      rw [if_neg (by simp), if_pos ⟨hf, hi⟩]
  · intro hl hi
    cases hm : (w.segAt i).meets_conditions c
    · simp [Word.index_applicable, hseg, hc, hm]
    · simp only [Word.index_applicable, hseg, hc, hm]
      by_cases hf : r.first = true ∧ i ≠ 0
      · rw [if_neg (by simp), if_pos hf]
      · rw [if_neg (by simp), if_neg hf, if_pos ⟨hl, hi⟩]

/-- Witness for C6: the `last`-restricted rule at index 0 of the
two-segment word. -/
theorem C6_witness :
    (ruleLast.first = true → (0 : Nat) ≠ 0 →
      wordVU.index_applicable 0 ruleLast = .ok false) ∧
    (ruleLast.last = true → (0 : Nat) ≠ wordVU.segments.length - 1 →
      wordVU.index_applicable 0 ruleLast = .ok false) :=
  C6_first_last_exclusive wordVU ruleLast 0 condV rfl (by decide)

/-- C7: a rule with `before` set never matches index 0, a rule with `after`
set never matches the last index, and at every in-range index
`index_applicable` completes with a boolean — its neighbor accesses never
raise an out-of-range fault. -/
theorem C7_context_boundary (w : Word) (r : Rule) (c : Segment)
    (hc : r.conditions = some c) :
    (∀ b, r.before = some b → 0 < w.segments.length →
      w.index_applicable 0 r = .ok false) ∧
    (∀ a, r.after = some a → 0 < w.segments.length →
      w.index_applicable (w.segments.length - 1) r = .ok false) ∧
    (∀ i < w.segments.length, ∃ bo, w.index_applicable i r = .ok bo) := by
  refine ⟨?_, ?_, fun i hi => w.index_applicable_isOk i r hc hi⟩
  · intro b hb hlen
    have hseg := w.seg_ok hlen
    cases hm : (w.segAt 0).meets_conditions c
    · simp [Word.index_applicable, hseg, hc, hm]
    · simp only [Word.index_applicable, hseg, hc, hm]
      rw [if_neg (by simp), if_neg (by simp)]
      by_cases hl : r.last = true ∧ (0 : Nat) ≠ w.segments.length - 1
      · rw [if_pos hl]
      · rw [if_neg hl]
        simp [Word.beforeCheck, hb]
  · intro a hA hlen
    have h : w.segments.length - 1 < w.segments.length := by omega
    have hseg := w.seg_ok h
    cases hm : (w.segAt (w.segments.length - 1)).meets_conditions c
    · simp [Word.index_applicable, hseg, hc, hm]
    · have hBC : w.beforeCheck (w.segments.length - 1) r = .ok false :=
        w.beforeCheck_of_after_false (w.segments.length - 1) r h
          (w.afterCheck_last r hA)
      simp only [Word.index_applicable, hseg, hc, hm]
      rw [if_neg (by simp)]
      by_cases hf : r.first = true ∧ w.segments.length - 1 ≠ 0
      · rw [if_pos hf]
      · rw [if_neg hf, if_neg (by simp)]
        exact hBC

/-- Witness for C7 at the contextual rule with both `before` and `after`
set, on the two-segment word. -/
theorem C7_witness :
    (∀ b, ruleCtx.before = some b → 0 < wordVU.segments.length →
      wordVU.index_applicable 0 ruleCtx = .ok false) ∧
    (∀ a, ruleCtx.after = some a → 0 < wordVU.segments.length →
      wordVU.index_applicable (wordVU.segments.length - 1) ruleCtx = .ok false) ∧
    (∀ i < wordVU.segments.length, ∃ bo, wordVU.index_applicable i ruleCtx = .ok bo) :=
  C7_context_boundary wordVU ruleCtx condU rfl

/-- C8: for a rule with a `conditions` key, `applicable` returns true iff
`index_applicable` holds at some in-range index; and on the empty word
`applicable` returns false for every rule whatsoever. -/
theorem C8_applicable_exists (w : Word) (r : Rule) (c : Segment)
    (hc : r.conditions = some c) :
    ((w.applicable r = .ok true ↔
      ∃ i, i < w.segments.length ∧ w.index_applicable i r = .ok true)) ∧
    (w.segments = [] → ∀ r2 : Rule, w.applicable r2 = .ok false) := by
  constructor
  · have hall : ∀ i ∈ List.range w.segments.length,
        ∃ b, w.index_applicable i r = .ok b :=
      fun i hi => w.index_applicable_isOk i r hc (List.mem_range.mp hi)
    rw [Word.applicable,
      w.anyApplicable_eq_ok_true r (List.range w.segments.length) hall]
    simp [List.mem_range]
  · intro hnil r2
    simp [Word.applicable, hnil, Word.anyApplicable]

/-- Witness for C8 at the spec's devoicing scenario. -/
theorem C8_witness :
    ((wordVU.applicable ruleDevoice = .ok true ↔
      ∃ i, i < wordVU.segments.length ∧
        wordVU.index_applicable i ruleDevoice = .ok true)) ∧
    (wordVU.segments = [] → ∀ r2 : Rule, wordVU.applicable r2 = .ok false) :=
  C8_applicable_exists wordVU ruleDevoice condV rfl

/-- C9: on a non-empty word, a rule without a `conditions` key makes
`index_applicable` (at any in-range index) and `applicable` fail with the
fatal key-lookup fault, and a rule without an `applies` key makes
`apply_rule` fail with the fatal key-lookup fault. -/
theorem C9_missing_keys_fatal (w : Word) (r : Rule) (i : Nat)
    (hw : w.segments ≠ []) :
    (r.conditions = none → i < w.segments.length →
      w.index_applicable i r = .error .keyError) ∧
    (r.conditions = none → w.applicable r = .error .keyError) ∧
    (r.applies = none → w.apply_rule r = .error .keyError) := by
  have hlen : 0 < w.segments.length := List.length_pos.mpr hw
  refine ⟨fun hc h => w.index_applicable_keyError i r hc h, fun hc => ?_, fun ha => ?_⟩
  · obtain ⟨n, hn⟩ : ∃ n, w.segments.length = n + 1 := ⟨w.segments.length - 1, by omega⟩
    rw [Word.applicable, hn, List.range_succ_eq_map]
    have h0 := w.index_applicable_keyError 0 r hc hlen
    simp [Word.anyApplicable, h0]
  · simp [Word.apply_rule, ha]

/-- Witness for C9: the keyless rule on the two-segment word. -/
theorem C9_witness :
    (ruleBare.conditions = none → 0 < wordVU.segments.length →
      wordVU.index_applicable 0 ruleBare = .error .keyError) ∧
    (ruleBare.conditions = none → wordVU.applicable ruleBare = .error .keyError) ∧
    (ruleBare.applies = none → wordVU.apply_rule ruleBare = .error .keyError) :=
  C9_missing_keys_fatal wordVU ruleBare 0 (by decide)

/-- C10: a rule (with `conditions` and `applies` keys) whose positive list
lacks `"deletion"` preserves word length: every input position contributes
exactly one output segment, combined at matched positions and unchanged at
unmatched ones. -/
theorem C10_no_deletion_preserves_length (w : Word) (r : Rule) (c : Segment)
    (ap : Applies) (hc : r.conditions = some c) (ha : r.applies = some ap)
    (hnod : "deletion" ∉ ap.positive.getD []) :
    (w.apply_rule r = .ok ⟨(List.range w.segments.length).map (fun i =>
        if w.index_applicable i r = .ok true then
          (w.segAt i).combine (Segment.mkFromLists (ap.positive.getD [])
            (ap.negative.getD []) (ap.zero.getD []))
        else w.segAt i)⟩) ∧
    (Except.map (fun v => v.segments.length) (w.apply_rule r)
      = .ok w.segments.length) := by
  have hmap := filterMap_if_some (fun i => w.index_applicable i r = .ok true)
    (fun i => w.segAt i + Segment.mkFromLists (ap.positive.getD [])
      (ap.negative.getD []) (ap.zero.getD []))
    w.segAt (List.range w.segments.length)
  have h1 : w.apply_rule r = .ok ⟨(List.range w.segments.length).map (fun i =>
      if w.index_applicable i r = .ok true then
        (w.segAt i).combine (Segment.mkFromLists (ap.positive.getD [])
          (ap.negative.getD []) (ap.zero.getD []))
      else w.segAt i)⟩ := by
    rw [w.apply_rule_eq r hc ha]
    simp only [hnod, if_false, ite_false]
    rw [hmap]
    rfl
  refine ⟨h1, ?_⟩
  rw [h1]
  simp [Except.map]

/-- Witness for C10 at the spec's devoicing scenario. -/
theorem C10_witness :
    (wordVU.apply_rule ruleDevoice = .ok ⟨(List.range wordVU.segments.length).map
        (fun i =>
          if wordVU.index_applicable i ruleDevoice = .ok true then
            (wordVU.segAt i).combine (Segment.mkFromLists
              (apDevoice.positive.getD []) (apDevoice.negative.getD [])
              (apDevoice.zero.getD []))
          else wordVU.segAt i)⟩) ∧
    (Except.map (fun v => v.segments.length) (wordVU.apply_rule ruleDevoice)
      = .ok wordVU.segments.length) :=
  C10_no_deletion_preserves_length wordVU ruleDevoice condV apDevoice rfl rfl
    (by decide)

end Onset
